import Mathlib

/-!
# storage-go: request construction and URL derivation

A shallow embedding of `src/storage.go`.

* Go `string` values are Lean `String`s (valid UTF-8 text), Go `int` values are `Int`s,
  `[]byte` and `io.Reader` contents are lists of bytes, a nil slice is the empty list and a
  nil pointer is `none`.
* The collaborators the file calls but does not implement are explicit: the HTTP session and
  the JSON decoder are fields of `Env`, `url.Parse` and `URL.Query` are fields of `NetUrl`.
  The parts of the Go standard library whose results the code writes into its output
  (`url.Values.Add`, `url.Values.Encode`, `url.QueryEscape`, `URL.String`, `http.Header.Set`,
  `http.Header.Get`, `strconv.Itoa`, `strconv.FormatBool`, `regexp.ReplaceAllString` for the
  literal pattern of `removeEmptyFolderName`) are modelled from their documented behaviour,
  and so are `url.QueryUnescape` and `url.ParseQuery` on bytes, which read a query back.
* Every operation returns a `Call`: the transport header after the call, the arguments it
  handed to `http.NewRequest`, and the Go result pair `(value, err)`.
-/

namespace StorageGo

/-! ## Constants -/

abbrev Bytes := List UInt8

/-- A Go `error` value, identified by its message. -/
abbrev Error := String

def defaultLimit : Int := 100
def defaultOffset : Int := 0
def defaultFileCacheControl : String := "3600"
def defaultFileContentType : String := "text/plain;charset=UTF-8"
def defaultFileUpsert : Bool := false
def defaultSortColumn : String := "name"
def defaultSortOrder : String := "asc"

def MethodGet : String := "GET"
def MethodPost : String := "POST"
def MethodPut : String := "PUT"
def MethodDelete : String := "DELETE"

/-! ## strconv -/

/-- Go `strconv.FormatBool`. -/
def FormatBool (b : Bool) : String := if b then "true" else "false"

/-- Go `strconv.Itoa`: the decimal representation of an integer. -/
def Itoa (i : Int) : String :=
  if i < 0 then "-" ++ Nat.repr i.natAbs else Nat.repr i.natAbs

/-! ## Path normalizer -/

/-- The effect of `regexp.MustCompile("\/\/").ReplaceAllString(s, "/")` on the characters of
`s`: scanning from the left, each match of the two-character pattern `//` is replaced by one
`/` and the scan resumes after the match, so matches never overlap. -/
def replaceSlashPairs : List Char → List Char
  | [] => []
  | [c] => [c]
  | c :: d :: rest =>
    if c = '/' ∧ d = '/' then '/' :: replaceSlashPairs rest
    else c :: replaceSlashPairs (d :: rest)

/-- Go `removeEmptyFolderName`. -/
def removeEmptyFolderName (filePath : String) : String :=
  ⟨replaceSlashPairs filePath.data⟩

/-! ## net/url -/

/-- A parsed `url.URL`, as far as `buildUrlWithOption` touches it. `Head` is what
`URL.String` writes before the query (scheme, authority and escaped path), `Fragment` is the
escaped fragment, empty when the URL has none. -/
structure URL where
  Head : String
  ForceQuery : Bool
  RawQuery : String
  Fragment : String
  deriving DecidableEq

/-- Go `URL.String`: the head, then `?` and the raw query when `ForceQuery` is set or the raw
query is non-empty, then `#` and the fragment when there is one. -/
def URL.String (u : URL) : String :=
  u.Head
    ++ (if u.ForceQuery || u.RawQuery != "" then "?" ++ u.RawQuery else "")
    ++ (if u.Fragment != "" then "#" ++ u.Fragment else "")

/-- Go `url.Values` (`map[string][]string`), kept as the key/value pairs in the order they
were added; the values of one key are the pairs with that key, in order. -/
abbrev Values := List (String × String)

/-- Go `Values.Add`: append the value to the values of the key. -/
def Values.Add (v : Values) (key value : String) : Values := v ++ [(key, value)]

/-- The characters `url.QueryEscape` leaves alone: ASCII letters, digits, `-`, `_`, `.`, `~`. -/
def unreserved (c : Char) : Bool :=
  c.isAlphanum || c == '-' || c == '_' || c == '.' || c == '~'

/-- One digit of Go's `upperhex` table `"0123456789ABCDEF"`. -/
def upperhex (n : Nat) : Char :=
  if n < 10 then Char.ofNat (48 + n) else Char.ofNat (55 + n)

/-- The escape `%XX` of one byte. -/
def pctByte (b : UInt8) : List Char :=
  ['%', upperhex (b.toNat / 16), upperhex (b.toNat % 16)]

/-- What `url.QueryEscape` writes for one character: an unreserved character is kept, a
space becomes `+`, and each byte of the UTF-8 encoding of any other character becomes `%XX`. -/
def escapeChar (c : Char) : List Char :=
  if unreserved c then [c]
  else if c = Char.ofNat 32 then ['+']
  else (String.utf8EncodeChar c).flatMap pctByte

/-- Go `url.QueryEscape`. -/
def QueryEscape (s : String) : String := ⟨s.data.flatMap escapeChar⟩

/-- Go `ishex` of `net/url`. -/
def ishex (c : Char) : Bool :=
  (48 ≤ c.toNat ∧ c.toNat ≤ 57) ∨ (97 ≤ c.toNat ∧ c.toNat ≤ 102) ∨ (65 ≤ c.toNat ∧ c.toNat ≤ 70)

/-- Go `unhex` of `net/url`. -/
def unhex (c : Char) : Nat :=
  if 48 ≤ c.toNat ∧ c.toNat ≤ 57 then c.toNat - 48
  else if 97 ≤ c.toNat ∧ c.toNat ≤ 102 then c.toNat - 97 + 10
  else if 65 ≤ c.toNat ∧ c.toNat ≤ 70 then c.toNat - 65 + 10
  else 0

/-- The bytes of a Go string: the UTF-8 encoding of the text. -/
def utf8 (s : String) : Bytes := s.data.flatMap String.utf8EncodeChar

/-- Go `unescape` in query-component mode, on the characters of the text: `%XX` with two hex
digits is the byte `XX`, a `%` without them is an error, `+` is a space, and any other
character stands for its own bytes. -/
def unescapeChars : List Char → Option Bytes
  | [] => some []
  | c :: rest =>
    if c = '%' then
      match rest with
      | a :: b :: rest2 =>
        if ishex a && ishex b then
          (unescapeChars rest2).map fun t => UInt8.ofNat (unhex a * 16 + unhex b) :: t
        else none
      | _ => none
    else if c = '+' then (unescapeChars rest).map fun t => 32 :: t
    else (unescapeChars rest).map fun t => String.utf8EncodeChar c ++ t

/-- Go `url.QueryUnescape`: the bytes of the unescaped text, `none` for an error. -/
def QueryUnescape (s : String) : Option Bytes := unescapeChars s.data

/-- The keys of the map, each once. -/
def Values.keys (v : Values) : List String := (v.map Prod.fst).dedup

/-- Lexicographic `<` on texts by code point, which is Go's byte-wise `<` on their UTF-8
encodings. -/
def ltChars : List Char → List Char → Bool
  | [], [] => false
  | [], _ :: _ => true
  | _ :: _, [] => false
  | a :: as, b :: bs =>
    if a.toNat < b.toNat then true
    else if b.toNat < a.toNat then false
    else ltChars as bs

/-- Go's `<=` on strings. -/
def stringLE (a b : String) : Bool := !ltChars b.data a.data

/-- The pairs in the order `Values.Encode` writes them: keys sorted, and under each key its
values in the order they were added. -/
def Values.sorted (v : Values) : List (String × String) :=
  (List.insertionSort (fun a b : String => stringLE a b = true) v.keys).flatMap
    fun k => v.filter fun p => p.1 = k

/-- One step of the loop of `Values.Encode`: an `&` when the buffer is non-empty, then the
escaped key, `=`, and the escaped value. -/
def encodeStep (buf : String) (p : String × String) : String :=
  (if buf.length > 0 then buf ++ "&" else buf) ++ QueryEscape p.1 ++ "=" ++ QueryEscape p.2

/-- Go `Values.Encode`: the "URL encoded" form (`bar=baz&foo=quux`), sorted by key. -/
def Values.Encode (v : Values) : String := v.sorted.foldl encodeStep ""

/-- The `net/url` functions taken as given: `url.Parse` (`none` when it returns an error) and
the parser behind `URL.Query`, applied to the raw query. -/
structure NetUrl where
  Parse : String → Option URL
  ParseQuery : String → Values

/-- Go `URL.Query`. -/
def NetUrl.Query (lib : NetUrl) (u : URL) : Values := lib.ParseQuery u.RawQuery

/-! ## Reading a query string -/

/-- Split at every `&` (Go `strings.Split`). -/
def splitAmp : List Char → List (List Char)
  | [] => [[]]
  | c :: cs =>
    if c = '&' then [] :: splitAmp cs
    else match splitAmp cs with
      | [] => [[c]]
      | w :: ws => (c :: w) :: ws

/-- Cut at the first `=` (Go `strings.Cut`); without `=` the whole text is the key. -/
def cutEq : List Char → List Char × List Char
  | [] => ([], [])
  | c :: cs => if c = '=' then ([], cs) else ((c :: (cutEq cs).1), (cutEq cs).2)

/-- The `key=value` components of a raw query string, as written (still escaped), in order;
empty components are skipped as `url.ParseQuery` does. -/
def queryPairs (raw : String) : List (String × String) :=
  ((splitAmp raw.data).filter fun w => w ≠ []).map fun w =>
    (String.mk (cutEq w).1, String.mk (cutEq w).2)

/-- The values a raw query string carries for a key, as written, in order. -/
def queryValues (raw key : String) : List String :=
  ((queryPairs raw).filter fun p => p.1 = key).map Prod.snd

/-- Go `url.ParseQuery` on the bytes of keys and values: the components between `&`, empty
ones skipped, one with `;` or with a key or value that does not unescape skipped, each cut at
its first `=` and both halves unescaped. -/
def ParseQueryBytes (raw : String) : List (Bytes × Bytes) :=
  (queryPairs raw).filterMap fun p =>
    if ';' ∈ p.1.data ∨ ';' ∈ p.2.data then none
    else
      match QueryUnescape p.1, QueryUnescape p.2 with
      | some k, some v => some (k, v)
      | _, _ => none

/-- The values `url.ParseQuery` reads from a raw query under a key, as bytes, in order. -/
def parsedValues (raw key : String) : List Bytes :=
  ((ParseQueryBytes raw).filter fun p => p.1 = utf8 key).map Prod.snd

/-! ## Data model -/

structure SortBy where
  Column : String
  Order : String
  deriving DecidableEq

structure FileUploadResponse where
  Key : String := ""
  Message : String := ""
  Data : Bytes := []
  Code : String := ""
  Error : String := ""
  deriving DecidableEq

structure SignedUrlResponse where
  SignedURL : String := ""
  deriving DecidableEq

structure FileSearchOptions where
  Limit : Int := 0
  Offset : Int := 0
  SortByOptions : SortBy := ⟨"", ""⟩
  deriving DecidableEq

/-- Go `FileObject`; `Metadata` (an `interface{}`) and `Buckets` (a `Bucket`, declared
outside this file) are carried as their JSON text. -/
structure FileObject where
  Name : String
  BucketId : String
  Owner : String
  Id : String
  UpdatedAt : String
  CreatedAt : String
  LastAccessedAt : String
  Metadata : String
  Buckets : String
  deriving DecidableEq

structure ListFileRequestBody where
  Limit : Int
  Offset : Int
  SortByOptions : SortBy
  Prefix : String
  deriving DecidableEq

structure TransformOptions where
  Width : Int := 0
  Height : Int := 0
  Resize : String := ""
  Format : String := ""
  Quality : Int := 0
  deriving DecidableEq

structure UrlOptions where
  Transform : Option TransformOptions := none
  Download : Bool := false
  deriving DecidableEq

structure SignedUploadUrlResponse where
  Url : String := ""
  deriving DecidableEq

structure UploadToSignedUrlResponse where
  Key : String := ""
  deriving DecidableEq

/-! ## Transport -/

/-- The token characters of a header field name (`validHeaderFieldByte` of `net/textproto`):
letters, digits and the fifteen punctuation marks of an RFC 7230 token, given by code point. -/
def validHeaderFieldByte (c : Char) : Bool :=
  c.isAlphanum || [33, 35, 36, 37, 38, 39, 42, 43, 45, 46, 94, 95, 96, 124, 126].contains c.toNat

/-- The casing loop of `canonicalMIMEHeaderKey`: upper case for the first letter and for a
letter after `-`, lower case for the others. -/
def canonicalCase (upper : Bool) : List Char → List Char
  | [] => []
  | c :: cs =>
    let c1 := if upper && c.isLower then c.toUpper
              else if !upper && c.isUpper then c.toLower else c
    c1 :: canonicalCase (c1 == '-') cs

/-- Go `textproto.CanonicalMIMEHeaderKey`: a key made of token characters only is put in
canonical case, any other key is returned unchanged. -/
def CanonicalMIMEHeaderKey (s : String) : String :=
  if s.data.all validHeaderFieldByte then ⟨canonicalCase true s.data⟩ else s

/-- Go `http.Header` (`map[string][]string`): the values stored under each key, none when the
key is absent. -/
abbrev Header := String → List String

/-- Go `Header.Set`: the values of the canonical key become the single given value. -/
def Header.Set (h : Header) (key value : String) : Header :=
  fun k => if k = CanonicalMIMEHeaderKey key then [value] else h k

/-- Go `Header.Get`: the first value of the canonical key, or `""`. -/
def Header.Get (h : Header) (key : String) : String :=
  match h (CanonicalMIMEHeaderKey key) with
  | [] => ""
  | v :: _ => v

/-- The client: the header set of `c.clientTransport` and `c.clientTransport.baseUrl.String()`. -/
structure Client where
  header : Header
  baseUrl : String

/-- The value handed to `json.Marshal` for a request body. -/
inductive Payload where
  | move (bucketId sourceKey destinationKey : String)
  | expiresIn (n : Int)
  | emptyObject
  | prefixes (paths : List String)
  | listFiles (body : ListFileRequestBody)
  deriving DecidableEq

/-- The body argument of `http.NewRequest`: a byte stream, the JSON encoding of a payload,
or nil. -/
inductive Body where
  | raw (data : Bytes)
  | json (p : Payload)
  | none
  deriving DecidableEq

/-- The three arguments of `http.NewRequest`. -/
structure Request where
  Method : String
  URL : String
  Body : Body
  deriving DecidableEq

/-- An `http.Response`, as far as the client reads it: the bytes its body yields, and the
error that ends the body when it does not end at EOF. -/
structure Response where
  Body : Bytes
  BodyErr : Option Error := none
  deriving DecidableEq

/-- Go `io.ReadAll`: the data read until an error or EOF, and the error. -/
def ReadAll (r : Response) : Bytes × Option Error := (r.Body, r.BodyErr)

/-- The collaborators: `http.NewRequest` (its error, if any), `c.session.Do` (which sees the
transport header), and `json.Unmarshal` into a zero-valued target of each response type (the
value left in the target, and the error). -/
structure Env where
  NewRequest : Request → Option Error
  Do : Header → Request → Except Error Response
  UnmarshalFileUpload : Bytes → FileUploadResponse × Option Error
  UnmarshalSignedUrl : Bytes → SignedUrlResponse × Option Error
  UnmarshalSignedUploadUrl : Bytes → SignedUploadUrlResponse × Option Error
  UnmarshalUploadToSignedUrl : Bytes → UploadToSignedUrlResponse × Option Error
  UnmarshalFileObjects : Bytes → List FileObject × Option Error

/-- What one call of an operation does: the transport header it leaves, the request it built,
and the pair `(value, err)` it returns. -/
structure Call (α : Type) where
  header : Header
  request : Request
  value : α
  err : Option Error

/-! ## URL builder -/

/-- Go `buildUrlWithOption`. -/
def buildUrlWithOption (lib : NetUrl) (urlStr : String) (options : UrlOptions) : String :=
  match lib.Parse urlStr with
  | none => ""
  | some signedURL =>
    let signedURLQuery := lib.Query signedURL
    let signedURLQuery :=
      match options.Transform with
      | some transform =>
        let q := signedURLQuery
        let q := if transform.Height > 0 then q.Add "height" (Itoa transform.Height) else q
        let q := if transform.Width > 0 then q.Add "width" (Itoa transform.Width) else q
        let q := if transform.Format ≠ "" then q.Add "format" transform.Format else q
        let q := if transform.Quality > 0 then q.Add "quality" (Itoa transform.Quality) else q
        if transform.Resize ≠ "" ∧
            (transform.Resize = "conver" ∨ transform.Resize = "contain"
              ∨ transform.Resize = "fill") then
          q.Add "resize" transform.Resize
        else q
      | none => signedURLQuery
    let signedURLQuery :=
      if options.Download = true then signedURLQuery.Add "download" (FormatBool options.Download)
      else signedURLQuery
    URL.String { signedURL with RawQuery := signedURLQuery.Encode }

/-! ## Operations -/

/-- Go `Client.UploadOrUpdateFile`. -/
def Client.UploadOrUpdateFile (env : Env) (c : Client) (bucketId relativePath : String)
    (data : Bytes) (update : Bool) : Call FileUploadResponse :=
  let header := c.header.Set "cache-control" defaultFileCacheControl
  let header :=
    if header.Get "content-type" = "" then header.Set "content-type" defaultFileContentType
    else header
  let header := header.Set "x-upsert" (FormatBool defaultFileUpsert)
  let path := removeEmptyFolderName (bucketId ++ "/" ++ relativePath)
  let method := if update then MethodPut else MethodPost
  let request : Request := ⟨method, c.baseUrl ++ "/object/" ++ path, Body.raw data⟩
  match env.NewRequest request with
  | some err => ⟨header, request, {}, some err⟩
  | none =>
    match env.Do header request with
    | .error err => ⟨header, request, {}, some err⟩
    | .ok res =>
      match ReadAll res with
      | (_, some err) => ⟨header, request, {}, some err⟩
      | (body, none) =>
        match env.UnmarshalFileUpload body with
        | (_, some err) => ⟨header, request, {}, some err⟩
        | (response, none) => ⟨header, request, response, none⟩

/-- Go `Client.UpdateFile`. -/
def Client.UpdateFile (env : Env) (c : Client) (bucketId relativePath : String)
    (data : Bytes) : Call FileUploadResponse :=
  c.UploadOrUpdateFile env bucketId relativePath data true

/-- Go `Client.UploadFile`. -/
def Client.UploadFile (env : Env) (c : Client) (bucketId relativePath : String)
    (data : Bytes) : Call FileUploadResponse :=
  c.UploadOrUpdateFile env bucketId relativePath data false

/-- Go `Client.MoveFile`. -/
def Client.MoveFile (env : Env) (c : Client) (bucketId sourceKey destinationKey : String) :
    Call FileUploadResponse :=
  let request : Request :=
    ⟨MethodPost, c.baseUrl ++ "/object/move",
      Body.json (Payload.move bucketId sourceKey destinationKey)⟩
  match env.NewRequest request with
  | some err => ⟨c.header, request, {}, some err⟩
  | none =>
    match env.Do c.header request with
    | .error err => ⟨c.header, request, {}, some err⟩
    | .ok res =>
      match ReadAll res with
      | (_, some err) => ⟨c.header, request, {}, some err⟩
      | (body, none) =>
        match env.UnmarshalFileUpload body with
        | (_, some err) => ⟨c.header, request, {}, some err⟩
        | (response, none) => ⟨c.header, request, response, none⟩

/-- Go `Client.CreateSignedUrl`. -/
def Client.CreateSignedUrl (env : Env) (c : Client) (bucketId filePath : String)
    (expiresIn : Int) : Call SignedUrlResponse :=
  let request : Request :=
    ⟨MethodPost, c.baseUrl ++ "/object/sign/" ++ bucketId ++ "/" ++ filePath,
      Body.json (Payload.expiresIn expiresIn)⟩
  match env.NewRequest request with
  | some err => ⟨c.header, request, {}, some err⟩
  | none =>
    match env.Do c.header request with
    | .error err => ⟨c.header, request, {}, some err⟩
    | .ok res =>
      match ReadAll res with
      | (_, some err) => ⟨c.header, request, {}, some err⟩
      | (body, none) =>
        match env.UnmarshalSignedUrl body with
        | (_, some err) => ⟨c.header, request, {}, some err⟩
        | (response, none) =>
          ⟨c.header, request, { response with SignedURL := c.baseUrl ++ response.SignedURL },
            none⟩

/-- Go `Client.CreateSignedUploadUrl`. -/
def Client.CreateSignedUploadUrl (env : Env) (c : Client) (bucketId filePath : String) :
    Call SignedUploadUrlResponse :=
  let request : Request :=
    ⟨MethodPost, c.baseUrl ++ "/object/upload/sign/" ++ bucketId ++ "/" ++ filePath,
      Body.json Payload.emptyObject⟩
  match env.NewRequest request with
  | some err => ⟨c.header, request, {}, some err⟩
  | none =>
    match env.Do c.header request with
    | .error err => ⟨c.header, request, {}, some err⟩
    | .ok res =>
      match ReadAll res with
      | (_, some err) => ⟨c.header, request, {}, some err⟩
      | (body, none) =>
        match env.UnmarshalSignedUploadUrl body with
        | (response, err) => ⟨c.header, request, response, err⟩

/-- Go `Client.UploadToSignedUrl`. -/
def Client.UploadToSignedUrl (env : Env) (c : Client) (filePath : String) (fileBody : Bytes) :
    Call (Option UploadToSignedUrlResponse) :=
  let header := c.header.Set "cache-control" defaultFileCacheControl
  let header := header.Set "content-type" defaultFileContentType
  let header := header.Set "x-upsert" (FormatBool defaultFileUpsert)
  let path := removeEmptyFolderName filePath
  let request : Request := ⟨MethodPut, c.baseUrl ++ path, Body.raw fileBody⟩
  match env.NewRequest request with
  | some err => ⟨header, request, none, some err⟩
  | none =>
    match env.Do header request with
    | .error err => ⟨header, request, none, some err⟩
    | .ok resp =>
      match ReadAll resp with
      | (_, some err) => ⟨header, request, none, some err⟩
      | (body, none) =>
        match env.UnmarshalUploadToSignedUrl body with
        | (_, some err) => ⟨header, request, none, some err⟩
        | (response, none) => ⟨header, request, some response, none⟩

/-- The `options` variable of `GetPublicUrl` and `DownloadFile`: the first element of the
variadic `urlOptions`, and the zero value when there is none. -/
def firstOptions (urlOptions : List UrlOptions) : UrlOptions :=
  match urlOptions with
  | [] => {}
  | o :: _ => o

/-- Go `Client.GetPublicUrl`. -/
def Client.GetPublicUrl (lib : NetUrl) (c : Client) (bucketId filePath : String)
    (urlOptions : List UrlOptions) : SignedUrlResponse :=
  let renderPath :=
    match urlOptions with
    | [] => "object"
    | options :: _ => if options.Transform ≠ none then "render/image" else "object"
  let options := firstOptions urlOptions
  let urlStr := c.baseUrl ++ "/" ++ renderPath ++ "/public/" ++ bucketId ++ "/" ++ filePath
  { SignedURL := buildUrlWithOption lib urlStr options }

/-- Go `Client.RemoveFile`. -/
def Client.RemoveFile (env : Env) (c : Client) (bucketId : String) (paths : List String) :
    Call FileUploadResponse :=
  let request : Request :=
    ⟨MethodDelete, c.baseUrl ++ "/object/" ++ bucketId, Body.json (Payload.prefixes paths)⟩
  match env.NewRequest request with
  | some err => ⟨c.header, request, {}, some err⟩
  | none =>
    match env.Do c.header request with
    | .error err => ⟨c.header, request, {}, some err⟩
    | .ok res =>
      match ReadAll res with
      | (_, some err) => ⟨c.header, request, {}, some err⟩
      | (body, none) =>
        match env.UnmarshalFileUpload body with
        | (_, some err) => ⟨c.header, request, {}, some err⟩
        | (response, none) => ⟨c.header, request, { response with Data := body }, none⟩

/-- Go `Client.ListFiles`. -/
def Client.ListFiles (env : Env) (c : Client) (bucketId queryPath : String)
    (options : FileSearchOptions) : Call (List FileObject) :=
  let options := if options.Offset = 0 then { options with Offset := defaultOffset } else options
  let options := if options.Limit = 0 then { options with Limit := defaultLimit } else options
  let options :=
    if options.SortByOptions.Order = "" then
      { options with SortByOptions := { options.SortByOptions with Order := defaultSortOrder } }
    else options
  let options :=
    if options.SortByOptions.Column = "" then
      { options with SortByOptions := { options.SortByOptions with Column := defaultSortColumn } }
    else options
  let body_ : ListFileRequestBody :=
    { Limit := options.Limit
      Offset := options.Offset
      SortByOptions := { Column := options.SortByOptions.Column,
                         Order := options.SortByOptions.Order }
      Prefix := queryPath }
  let request : Request :=
    ⟨MethodPost, c.baseUrl ++ "/object/list/" ++ bucketId, Body.json (Payload.listFiles body_)⟩
  match env.NewRequest request with
  | some err => ⟨c.header, request, [], some err⟩
  | none =>
    match env.Do c.header request with
    | .error err => ⟨c.header, request, [], some err⟩
    | .ok res =>
      match ReadAll res with
      | (_, some err) => ⟨c.header, request, [], some err⟩
      | (body, none) =>
        match env.UnmarshalFileObjects body with
        | (_, some err) => ⟨c.header, request, [], some err⟩
        | (response, none) => ⟨c.header, request, response, none⟩

/-- Go `Client.DownloadFile`. -/
def Client.DownloadFile (env : Env) (lib : NetUrl) (c : Client) (bucketId filePath : String)
    (urlOptions : List UrlOptions) : Call Bytes :=
  let renderPath :=
    match urlOptions with
    | [] => "object"
    | options :: _ =>
      if options.Transform ≠ none then "render/image/authenticated" else "object"
  let options := firstOptions urlOptions
  let urlStr := c.baseUrl ++ "/" ++ renderPath ++ "/" ++ bucketId ++ "/" ++ filePath
  let request : Request := ⟨MethodGet, buildUrlWithOption lib urlStr options, Body.none⟩
  match env.NewRequest request with
  | some err => ⟨c.header, request, [], some err⟩
  | none =>
    match env.Do c.header request with
    | .error err => ⟨c.header, request, [], some err⟩
    | .ok res =>
      match ReadAll res with
      | (body, err) => ⟨c.header, request, body, err⟩

/-! ## Vocabulary of the statements -/

/-- The text made of words, each followed by a run of `k` slashes. -/
def renderRuns : List (List Char × Nat) → List Char
  | [] => []
  | (w, k) :: r => w ++ List.replicate k '/' ++ renderRuns r

/-- The runs are the maximal runs of `/` of the text: no word contains `/`, and every word but
the first is non-empty, so no two runs touch. -/
def MaximalRuns (segs : List (List Char × Nat)) : Prop :=
  (∀ p ∈ segs, '/' ∉ p.1) ∧ (∀ p ∈ segs.tail, p.1 ≠ [])

instance MaximalRuns.decidable (segs : List (List Char × Nat)) :
    Decidable (MaximalRuns segs) := by
  unfold MaximalRuns; infer_instance

/-- Every run of `k` slashes replaced by a run of `ceil(k/2)` slashes. -/
def halveRuns (segs : List (List Char × Nat)) : List (List Char × Nat) :=
  segs.map fun p => (p.1, (p.2 + 1) / 2)

/-- A session that answers every request with an empty body, and a decoder that accepts
every body and decodes it to the zero value. -/
def quietEnv : Env where
  NewRequest := fun _ => none
  Do := fun _ _ => .ok { Body := [] }
  UnmarshalFileUpload := fun _ => ({}, none)
  UnmarshalSignedUrl := fun _ => ({}, none)
  UnmarshalSignedUploadUrl := fun _ => ({}, none)
  UnmarshalUploadToSignedUrl := fun _ => ({}, none)
  UnmarshalFileObjects := fun _ => ([], none)

/-- A client whose transport carries no header. -/
def bareClient : Client := ⟨fun _ => [], "http://host/storage/v1"⟩

/-- A client whose caller configured `Content-Type: image/png` on the transport. -/
def pngClient : Client :=
  ⟨fun k => if k = "Content-Type" then ["image/png"] else [], "http://host/storage/v1"⟩

/-- A session whose response body yields three bytes and then fails. -/
def brokenBodyEnv : Env :=
  { quietEnv with Do := fun _ _ => .ok { Body := [1, 2, 3], BodyErr := some "unexpected EOF" } }

/-- A decoder that reports an error after it has stored a field, as `json.Unmarshal` does
for the body `{"url":"/p","url":1}`: the first member is stored, the second is a type error. -/
def lateDecodeErrorEnv : Env :=
  { quietEnv with
    UnmarshalSignedUploadUrl := fun _ => ({ Url := "/p" }, some "json: cannot unmarshal number") }

/-- Whether the variadic `urlOptions` has a first element with a non-nil `Transform`. -/
def transformSupplied (urlOptions : List UrlOptions) : Bool :=
  match urlOptions with
  | [] => false
  | options :: _ => options.Transform.isSome

/-- A parser that accepts every text without `?` or `#` as a URL that is all head, with no
query and no fragment. -/
def plainUrl : NetUrl where
  Parse := fun s =>
    if s.data.all (fun c => c ≠ '?' ∧ c ≠ '#') then some ⟨s, false, "", ""⟩ else none
  ParseQuery := fun _ => []

/-- A session that answers every request with the bytes 7, 8, 9. -/
def bytesEnv : Env := { quietEnv with Do := fun _ _ => .ok { Body := [7, 8, 9] } }

/-- One `key=value` component as `Values.Encode` writes it. -/
def component (p : String × String) : List Char :=
  (QueryEscape p.1).data ++ '=' :: (QueryEscape p.2).data

/-- Whether `buildUrlWithOption` accepts a resize mode. -/
def acceptedResize (r : String) : Bool := r = "conver" ∨ r = "contain" ∨ r = "fill"

/-- The pairs `buildUrlWithOption` adds to the query for the options, in the order it adds
them. -/
def optionPairs (o : UrlOptions) : Values :=
  (match o.Transform with
    | some t =>
      (if t.Height > 0 then [("height", Itoa t.Height)] else [])
      ++ (if t.Width > 0 then [("width", Itoa t.Width)] else [])
      ++ (if t.Format ≠ "" then [("format", t.Format)] else [])
      ++ (if t.Quality > 0 then [("quality", Itoa t.Quality)] else [])
      ++ (if acceptedResize t.Resize then [("resize", t.Resize)] else [])
    | none => [])
  ++ (if o.Download then [("download", "true")] else [])

/-- The keys `buildUrlWithOption` can add. -/
def optionKeys : List String := ["height", "width", "format", "quality", "resize", "download"]

/-! ## Theorems -/

/-! ### The path normalizer -/

theorem replaceSlashPairs_cons_ne {c : Char} (hc : c ≠ '/') (t : List Char) :
    replaceSlashPairs (c :: t) = c :: replaceSlashPairs t := by
  cases t with
  | nil => simp [replaceSlashPairs]
  | cons d rest => simp [replaceSlashPairs, hc]

theorem replaceSlashPairs_word (w t : List Char) (hw : '/' ∉ w) :
    replaceSlashPairs (w ++ t) = w ++ replaceSlashPairs t := by
  induction w with
  | nil => rfl
  | cons c w ih =>
    have hc : c ≠ '/' := fun h => hw (by simp [h])
    have hw' : '/' ∉ w := fun h => hw (List.mem_cons_of_mem _ h)
    rw [List.cons_append, replaceSlashPairs_cons_ne hc, ih hw', List.cons_append]

theorem replaceSlashPairs_slash_cons_ne {d : Char} (hd : d ≠ '/') (t : List Char) :
    replaceSlashPairs ('/' :: d :: t) = '/' :: replaceSlashPairs (d :: t) := by
  simp [replaceSlashPairs, hd]

/-- A run of `k` slashes that ends the text or is followed by another character becomes a run
of `ceil(k/2)` slashes. -/
theorem replaceSlashPairs_run (k : Nat) (t : List Char) (ht : t.head? ≠ some '/') :
    replaceSlashPairs (List.replicate k '/' ++ t)
      = List.replicate ((k + 1) / 2) '/' ++ replaceSlashPairs t := by
  induction k using Nat.strong_induction_on with
  | _ k ih =>
    match k with
    | 0 => simp
    | 1 =>
      cases t with
      | nil => simp [replaceSlashPairs]
      | cons d rest =>
        have hd : d ≠ '/' := fun h => ht (by simp [h])
        simpa using replaceSlashPairs_slash_cons_ne hd rest
    | k + 2 =>
      have h2 : (k + 2 + 1) / 2 = (k + 1) / 2 + 1 := by omega
      rw [h2, List.replicate_succ, List.replicate_succ, List.replicate_succ]
      simp only [List.cons_append]
      rw [replaceSlashPairs]
      simp only [and_self, if_true]
      rw [ih k (by omega)]

theorem renderRuns_head (segs : List (List Char × Nat))
    (h : ∀ p ∈ segs, '/' ∉ p.1 ∧ p.1 ≠ []) : (renderRuns segs).head? ≠ some '/' := by
  cases segs with
  | nil => simp [renderRuns]
  | cons p r =>
    obtain ⟨w, k⟩ := p
    have hp := h (w, k) (by simp)
    cases w with
    | nil => exact absurd rfl hp.2
    | cons c w =>
      intro hh
      simp [renderRuns] at hh
      exact hp.1 (by simp [hh])

theorem replaceSlashPairs_renderRuns_tail (segs : List (List Char × Nat))
    (h : ∀ p ∈ segs, '/' ∉ p.1 ∧ p.1 ≠ []) :
    replaceSlashPairs (renderRuns segs) = renderRuns (halveRuns segs) := by
  induction segs with
  | nil => rfl
  | cons p r ih =>
    obtain ⟨w, k⟩ := p
    have hr : ∀ p ∈ r, '/' ∉ p.1 ∧ p.1 ≠ [] := fun p hp => h p (List.mem_cons_of_mem _ hp)
    have hw := (h (w, k) (by simp)).1
    simp only [renderRuns, halveRuns, List.map_cons, List.append_assoc]
    rw [replaceSlashPairs_word _ _ hw, replaceSlashPairs_run _ _ (renderRuns_head r hr), ih hr]
    rfl

theorem replaceSlashPairs_renderRuns (segs : List (List Char × Nat)) (h : MaximalRuns segs) :
    replaceSlashPairs (renderRuns segs) = renderRuns (halveRuns segs) := by
  cases segs with
  | nil => rfl
  | cons p r =>
    obtain ⟨w, k⟩ := p
    have hr : ∀ p ∈ r, '/' ∉ p.1 ∧ p.1 ≠ [] :=
      fun p hp => ⟨h.1 p (List.mem_cons_of_mem _ hp), h.2 p (by simpa using hp)⟩
    have hw := h.1 (w, k) (by simp)
    simp only [renderRuns, halveRuns, List.map_cons, List.append_assoc]
    rw [replaceSlashPairs_word _ _ hw, replaceSlashPairs_run _ _ (renderRuns_head r hr),
      replaceSlashPairs_renderRuns_tail r hr]
    rfl

/-- Every text is a sequence of words and maximal runs of slashes. -/
theorem exists_maximalRuns (l : List Char) :
    ∃ segs, MaximalRuns segs ∧ l = renderRuns segs := by
  induction l with
  | nil => exact ⟨[], by simp [MaximalRuns], rfl⟩
  | cons c t ih =>
    obtain ⟨segs, hm, rfl⟩ := ih
    by_cases hc : c = '/'
    · subst hc
      match segs, hm with
      | [], _ => exact ⟨[([], 1)], by simp [MaximalRuns], by simp [renderRuns]⟩
      | ([], k) :: r, hm =>
        refine ⟨([], k + 1) :: r, ⟨?_, ?_⟩, ?_⟩
        · intro p hp
          rcases List.mem_cons.1 hp with rfl | hp
          · simp
          · exact hm.1 p (List.mem_cons_of_mem _ hp)
        · simpa using hm.2
        · simp [renderRuns, List.replicate_succ]
      | (d :: w, k) :: r, hm =>
        refine ⟨([], 1) :: (d :: w, k) :: r, ⟨?_, ?_⟩, ?_⟩
        · intro p hp
          rcases List.mem_cons.1 hp with rfl | hp
          · simp
          · exact hm.1 p hp
        · intro p hp
          rcases List.mem_cons.1 (by simpa using hp) with rfl | hp
          · simp
          · exact hm.2 p (by simpa using hp)
        · simp [renderRuns]
    · match segs, hm with
      | [], _ => exact ⟨[([c], 0)], by simp [MaximalRuns, Ne.symm hc], by simp [renderRuns]⟩
      | (w, k) :: r, hm =>
        refine ⟨(c :: w, k) :: r, ⟨?_, ?_⟩, ?_⟩
        · intro p hp
          rcases List.mem_cons.1 hp with rfl | hp
          · have := hm.1 (w, k) (by simp)
            simp [Ne.symm hc, this]
          · exact hm.1 p (List.mem_cons_of_mem _ hp)
        · simpa using hm.2
        · simp [renderRuns]

/-- C2: `removeEmptyFolderName` replaces non-overlapping `//` pairs from the left in one
pass. Written as words free of `/` separated by its maximal runs of `/`, a text has every run
of `k` slashes replaced by a run of `ceil(k/2)` slashes and every word kept in place; every
text can be written so; `"a//b"` gives `"a/b"` and `"a///b"` gives `"a//b"`, not `"a/b"`. -/
theorem removeEmptyFolderName_halves_runs :
    (∀ segs, MaximalRuns segs →
      removeEmptyFolderName ⟨renderRuns segs⟩ = ⟨renderRuns (halveRuns segs)⟩)
    ∧ (∀ s : String, ∃ segs, MaximalRuns segs ∧ s = ⟨renderRuns segs⟩)
    ∧ removeEmptyFolderName "a//b" = "a/b"
    ∧ removeEmptyFolderName "a///b" = "a//b"
    ∧ removeEmptyFolderName "a///b" ≠ "a/b" := by
  refine ⟨?_, ?_, by decide, by decide, by decide⟩
  · intro segs h
    simp [removeEmptyFolderName, replaceSlashPairs_renderRuns segs h]
  · intro s
    obtain ⟨segs, hm, hs⟩ := exists_maximalRuns s.data
    exact ⟨segs, hm, by rw [← hs]⟩

/-- C2 at `"a///b"`: the run of three slashes becomes a run of two. -/
theorem removeEmptyFolderName_halves_runs_witness :
    MaximalRuns [(['a'], 3), (['b'], 0)]
    ∧ removeEmptyFolderName ⟨renderRuns [(['a'], 3), (['b'], 0)]⟩
        = ⟨renderRuns (halveRuns [(['a'], 3), (['b'], 0)])⟩ :=
  ⟨by decide, removeEmptyFolderName_halves_runs.1 _ (by decide)⟩

/-! ### Headers and requests of the upload operations -/

theorem canonical_cache_control : CanonicalMIMEHeaderKey "cache-control" = "Cache-Control" := by
  decide

theorem canonical_content_type : CanonicalMIMEHeaderKey "content-type" = "Content-Type" := by
  decide

theorem canonical_x_upsert : CanonicalMIMEHeaderKey "x-upsert" = "X-Upsert" := by
  decide

/-- The header `UploadOrUpdateFile` leaves on the transport, whatever the session answers. -/
theorem UploadOrUpdateFile_header (env : Env) (c : Client) (bucketId relativePath : String)
    (data : Bytes) (update : Bool) :
    (c.UploadOrUpdateFile env bucketId relativePath data update).header
      = ((if (c.header.Set "cache-control" defaultFileCacheControl).Get "content-type" = ""
          then (c.header.Set "cache-control" defaultFileCacheControl).Set "content-type"
            defaultFileContentType
          else c.header.Set "cache-control" defaultFileCacheControl).Set "x-upsert"
            (FormatBool defaultFileUpsert)) := by
  unfold Client.UploadOrUpdateFile
  simp only
  split
  · rfl
  · split
    · rfl
    · split
      · rfl
      · split <;> rfl

/-- The request `UploadOrUpdateFile` builds, whatever the session answers. -/
theorem UploadOrUpdateFile_request (env : Env) (c : Client) (bucketId relativePath : String)
    (data : Bytes) (update : Bool) :
    (c.UploadOrUpdateFile env bucketId relativePath data update).request
      = ⟨if update then MethodPut else MethodPost,
          c.baseUrl ++ "/object/" ++ removeEmptyFolderName (bucketId ++ "/" ++ relativePath),
          Body.raw data⟩ := by
  unfold Client.UploadOrUpdateFile
  simp only
  split
  · rfl
  · split
    · rfl
    · split
      · rfl
      · split <;> rfl

/-- The header `UploadToSignedUrl` leaves on the transport, whatever the session answers. -/
theorem UploadToSignedUrl_header (env : Env) (c : Client) (filePath : String)
    (fileBody : Bytes) :
    (c.UploadToSignedUrl env filePath fileBody).header
      = ((c.header.Set "cache-control" defaultFileCacheControl).Set "content-type"
          defaultFileContentType).Set "x-upsert" (FormatBool defaultFileUpsert) := by
  unfold Client.UploadToSignedUrl
  simp only
  split
  · rfl
  · split
    · rfl
    · split
      · rfl
      · split <;> rfl

/-- C1: the key `UploadOrUpdateFile` sends for `Upload("bucket", "//a//b.txt", data, false)`
is `bucket//a/b.txt`: it is not `bucket/a/b.txt` and it still has two adjacent `/`, because
the three slashes of `bucket///a//b.txt` lose only one pair. -/
theorem UploadOrUpdateFile_key_keeps_double_slash (env : Env) (c : Client) (data : Bytes) :
    (c.UploadOrUpdateFile env "bucket" "//a//b.txt" data false).request.URL
        = c.baseUrl ++ "/object/" ++ "bucket//a/b.txt"
    ∧ removeEmptyFolderName ("bucket" ++ "/" ++ "//a//b.txt") ≠ "bucket/a/b.txt"
    ∧ ['/', '/'] <:+: (removeEmptyFolderName ("bucket" ++ "/" ++ "//a//b.txt")).data := by
  refine ⟨?_, by decide, ?_⟩
  · rw [UploadOrUpdateFile_request]
    have : removeEmptyFolderName ("bucket" ++ "/" ++ "//a//b.txt") = "bucket//a/b.txt" := by
      decide
    simp only [this]
  · exact ⟨"bucket".data, "a/b.txt".data, by decide⟩

/-- C3: on `"a///b"` a second pass of `removeEmptyFolderName` changes the result of the
first: the first pass gives `"a//b"`, the second gives `"a/b"`. -/
theorem removeEmptyFolderName_second_pass_differs :
    removeEmptyFolderName "a///b" = "a//b"
    ∧ removeEmptyFolderName (removeEmptyFolderName "a///b") = "a/b"
    ∧ removeEmptyFolderName (removeEmptyFolderName "a///b") ≠ removeEmptyFolderName "a///b" := by
  decide

/-- C6, the claim as stated fails: after `UpdateFile` (an update) the `x-upsert` header is
`"false"`, not `"true"`. -/
theorem UpdateFile_x_upsert_not_true :
    (bareClient.UpdateFile quietEnv "bucket" "a.txt" []).header.Get "x-upsert" = "false"
    ∧ (bareClient.UpdateFile quietEnv "bucket" "a.txt" []).header.Get "x-upsert" ≠ "true" := by
  decide

/-- C6 as amended: every call of `UploadOrUpdateFile` sets `x-upsert` to `"false"` (the
constant `defaultFileUpsert`) and `cache-control` to `"3600"`, update or not; the update flag
selects the method, `PUT` for an update and `POST` otherwise. -/
theorem UploadOrUpdateFile_fixed_headers (env : Env) (c : Client)
    (bucketId relativePath : String) (data : Bytes) (update : Bool) :
    (c.UploadOrUpdateFile env bucketId relativePath data update).header.Get "x-upsert" = "false"
    ∧ (c.UploadOrUpdateFile env bucketId relativePath data update).header.Get "cache-control"
        = "3600"
    ∧ (c.UploadOrUpdateFile env bucketId relativePath data update).request.Method
        = if update then "PUT" else "POST" := by
  rw [UploadOrUpdateFile_header, UploadOrUpdateFile_request]
  refine ⟨?_, ?_, ?_⟩
  · simp [Header.Get, Header.Set, FormatBool, defaultFileUpsert]
  · split <;>
      simp [Header.Get, Header.Set, canonical_cache_control, canonical_content_type,
        canonical_x_upsert, defaultFileCacheControl]
  · simp [MethodPut, MethodPost]

/-- C7: with `Content-Type: image/png` configured on the transport, `UploadToSignedUrl`
leaves `content-type` at `text/plain;charset=UTF-8`, so the caller's value is lost, while
`UploadOrUpdateFile` on the same transport keeps `image/png`. -/
theorem UploadToSignedUrl_overwrites_content_type (env : Env) (filePath : String)
    (fileBody : Bytes) :
    pngClient.header.Get "content-type" = "image/png"
    ∧ (pngClient.UploadToSignedUrl env filePath fileBody).header.Get "content-type"
        = "text/plain;charset=UTF-8"
    ∧ (pngClient.UploadOrUpdateFile env "bucket" filePath fileBody false).header.Get
        "content-type" = "image/png" := by
  rw [UploadToSignedUrl_header, UploadOrUpdateFile_header]
  refine ⟨by decide, by decide, by decide⟩

/-- C10: two operations hand back a value together with an error. When the response body
yields the bytes 1, 2, 3 and then fails, `DownloadFile` returns those three bytes with the read
error; when the decoder stores `Url` and then reports an error, `CreateSignedUploadUrl` returns
the stored `Url` with that error. -/
theorem DownloadFile_returns_partial_bytes (lib : NetUrl) (c : Client)
    (bucketId filePath : String) (urlOptions : List UrlOptions) :
    (c.DownloadFile brokenBodyEnv lib bucketId filePath urlOptions).err = some "unexpected EOF"
    ∧ (c.DownloadFile brokenBodyEnv lib bucketId filePath urlOptions).value = [1, 2, 3]
    ∧ (c.CreateSignedUploadUrl lateDecodeErrorEnv bucketId filePath).err
        = some "json: cannot unmarshal number"
    ∧ (c.CreateSignedUploadUrl lateDecodeErrorEnv bucketId filePath).value = { Url := "/p" } := by
  refine ⟨rfl, rfl, rfl, rfl⟩

/-- `UploadOrUpdateFile` keeps a content type the caller configured, sets the default one
when there is none, and changes no header but `Cache-Control`, `Content-Type`, `X-Upsert`. -/
theorem UploadOrUpdateFile_content_type (env : Env) (c : Client)
    (bucketId relativePath : String) (data : Bytes) (update : Bool) :
    (c.UploadOrUpdateFile env bucketId relativePath data update).header.Get "content-type"
        = (if c.header.Get "content-type" = "" then "text/plain;charset=UTF-8"
           else c.header.Get "content-type")
    ∧ ∀ k, k ≠ "Cache-Control" → k ≠ "Content-Type" → k ≠ "X-Upsert" →
        (c.UploadOrUpdateFile env bucketId relativePath data update).header k = c.header k := by
  rw [UploadOrUpdateFile_header]
  have hget : (c.header.Set "cache-control" defaultFileCacheControl).Get "content-type"
      = c.header.Get "content-type" := by
    simp [Header.Get, Header.Set, canonical_cache_control, canonical_content_type]
  rw [hget]
  constructor
  · split
    · simp [Header.Get, Header.Set, canonical_content_type, canonical_x_upsert,
        defaultFileContentType]
    · simp only [Header.Get, Header.Set, canonical_cache_control, canonical_content_type,
        canonical_x_upsert]
      simp
  · intro k h1 h2 h3
    split <;>
      simp [Header.Set, canonical_cache_control, canonical_content_type, canonical_x_upsert,
        h1, h2, h3]

/-- `UploadToSignedUrl` changes no header but `Cache-Control`, `Content-Type`, `X-Upsert`. -/
theorem UploadToSignedUrl_other_headers (env : Env) (c : Client) (filePath : String)
    (fileBody : Bytes) (k : String) (h1 : k ≠ "Cache-Control") (h2 : k ≠ "Content-Type")
    (h3 : k ≠ "X-Upsert") :
    (c.UploadToSignedUrl env filePath fileBody).header k = c.header k := by
  rw [UploadToSignedUrl_header]
  simp [Header.Set, canonical_cache_control, canonical_content_type, canonical_x_upsert,
    h1, h2, h3]

/-- The operations that hand back the zero value with every error. -/
theorem zero_value_with_error (env : Env) (c : Client) (a b d : String) (data : Bytes)
    (update : Bool) (n : Int) (paths : List String) (options : FileSearchOptions) :
    ((c.UploadOrUpdateFile env a b data update).err ≠ none →
        (c.UploadOrUpdateFile env a b data update).value = {})
    ∧ ((c.MoveFile env a b d).err ≠ none → (c.MoveFile env a b d).value = {})
    ∧ ((c.CreateSignedUrl env a b n).err ≠ none → (c.CreateSignedUrl env a b n).value = {})
    ∧ ((c.UploadToSignedUrl env a data).err ≠ none →
        (c.UploadToSignedUrl env a data).value = none)
    ∧ ((c.RemoveFile env a paths).err ≠ none → (c.RemoveFile env a paths).value = {})
    ∧ ((c.ListFiles env a b options).err ≠ none → (c.ListFiles env a b options).value = []) := by
  refine ⟨?_, ?_, ?_, ?_, ?_, ?_⟩
  · unfold Client.UploadOrUpdateFile
    simp only
    split
    · intro _; rfl
    · split
      · intro _; rfl
      · split
        · intro _; rfl
        · split
          · intro _; rfl
          · intro h; exact absurd rfl h
  · unfold Client.MoveFile
    simp only
    split
    · intro _; rfl
    · split
      · intro _; rfl
      · split
        · intro _; rfl
        · split
          · intro _; rfl
          · intro h; exact absurd rfl h
  · unfold Client.CreateSignedUrl
    simp only
    split
    · intro _; rfl
    · split
      · intro _; rfl
      · split
        · intro _; rfl
        · split
          · intro _; rfl
          · intro h; exact absurd rfl h
  · unfold Client.UploadToSignedUrl
    simp only
    split
    · intro _; rfl
    · split
      · intro _; rfl
      · split
        · intro _; rfl
        · split
          · intro _; rfl
          · intro h; exact absurd rfl h
  · unfold Client.RemoveFile
    simp only
    split
    · intro _; rfl
    · split
      · intro _; rfl
      · split
        · intro _; rfl
        · split
          · intro _; rfl
          · intro h; exact absurd rfl h
  · unfold Client.ListFiles
    simp only
    split
    · intro _; rfl
    · split
      · intro _; rfl
      · split
        · intro _; rfl
        · split
          · intro _; rfl
          · intro h; exact absurd rfl h

/-! ### Listing -/

/-- The request `ListFiles` builds, whatever the session answers. -/
theorem ListFiles_request (env : Env) (c : Client) (bucketId queryPath : String)
    (options : FileSearchOptions) :
    (c.ListFiles env bucketId queryPath options).request
      = ⟨MethodPost, c.baseUrl ++ "/object/list/" ++ bucketId,
          Body.json (Payload.listFiles
            { Limit := if options.Limit = 0 then defaultLimit else options.Limit
              Offset := options.Offset
              SortByOptions :=
                { Column := if options.SortByOptions.Column = "" then defaultSortColumn
                            else options.SortByOptions.Column
                  Order := if options.SortByOptions.Order = "" then defaultSortOrder
                           else options.SortByOptions.Order }
              Prefix := queryPath })⟩ := by
  have hbody : ∀ (r : Request) (x : Call (List FileObject)),
      (x = (match env.NewRequest r with
        | some err => (⟨c.header, r, [], some err⟩ : Call (List FileObject))
        | none =>
          match env.Do c.header r with
          | .error err => ⟨c.header, r, [], some err⟩
          | .ok res =>
            match ReadAll res with
            | (_, some err) => ⟨c.header, r, [], some err⟩
            | (body, none) =>
              match env.UnmarshalFileObjects body with
              | (_, some err) => ⟨c.header, r, [], some err⟩
              | (response, none) => ⟨c.header, r, response, none⟩)) → x.request = r := by
    intro r x hx
    subst hx
    split
    · rfl
    · split
      · rfl
      · split
        · rfl
        · split <;> rfl
  refine (hbody _ (c.ListFiles env bucketId queryPath options) rfl).trans ?_
  obtain ⟨l, o, ⟨col, ord⟩⟩ := options
  by_cases h1 : o = 0 <;> by_cases h2 : l = 0 <;> by_cases h3 : ord = "" <;>
    by_cases h4 : col = "" <;> simp [h1, h2, h3, h4, defaultOffset]

/-- C8: the body `ListFiles` sends has `limit` = the given limit when non-zero and 100
otherwise, `offset` = the given offset, `sortBy.column` = the given column when non-empty and
`"name"` otherwise, `sortBy.order` = the given order when non-empty and `"asc"` otherwise, and
`prefix` = `queryPath`; its limit is never 0; with `FileSearchOptions{}` it is
`{limit 100, offset 0, sortBy {column "name", order "asc"}, prefix queryPath}`. -/
theorem ListFiles_body_defaults (env : Env) (c : Client) (bucketId queryPath : String)
    (options : FileSearchOptions) :
    (∃ body_ : ListFileRequestBody,
      (c.ListFiles env bucketId queryPath options).request.Body
          = Body.json (Payload.listFiles body_)
      ∧ body_.Limit = (if options.Limit ≠ 0 then options.Limit else 100)
      ∧ body_.Offset = options.Offset
      ∧ body_.SortByOptions.Column
          = (if options.SortByOptions.Column ≠ "" then options.SortByOptions.Column else "name")
      ∧ body_.SortByOptions.Order
          = (if options.SortByOptions.Order ≠ "" then options.SortByOptions.Order else "asc")
      ∧ body_.Prefix = queryPath
      ∧ body_.Limit ≠ 0)
    ∧ (c.ListFiles env bucketId queryPath {}).request.Body
        = Body.json (Payload.listFiles
            { Limit := 100, Offset := 0, SortByOptions := { Column := "name", Order := "asc" },
              Prefix := queryPath }) := by
  constructor
  · refine ⟨_, by rw [ListFiles_request], ?_, rfl, ?_, ?_, rfl, ?_⟩
    · by_cases h : options.Limit = 0 <;> simp [h, defaultLimit]
    · by_cases h : options.SortByOptions.Column = "" <;> simp [h, defaultSortColumn]
    · by_cases h : options.SortByOptions.Order = "" <;> simp [h, defaultSortOrder]
    · by_cases h : options.Limit = 0 <;> simp [h, defaultLimit]
  · rw [ListFiles_request]
    simp [defaultLimit, defaultSortColumn, defaultSortOrder]

/-! ### Public URLs and downloads -/

theorem DownloadFile_request (env : Env) (lib : NetUrl) (c : Client)
    (bucketId filePath : String) (urlOptions : List UrlOptions) :
    (c.DownloadFile env lib bucketId filePath urlOptions).request
      = ⟨MethodGet,
          buildUrlWithOption lib
            (c.baseUrl ++ "/"
              ++ (match urlOptions with
                  | [] => "object"
                  | options :: _ =>
                    if options.Transform ≠ none then "render/image/authenticated" else "object")
              ++ "/" ++ bucketId ++ "/" ++ filePath)
            (firstOptions urlOptions),
          Body.none⟩ := by
  unfold Client.DownloadFile
  simp only
  split
  · rfl
  · split <;> rfl

theorem append_literals (base a b c lit : String) (h : a ++ b ++ c = lit) :
    base ++ a ++ b ++ c = base ++ lit := by
  subst h
  simp [String.append_assoc]

theorem DownloadFile_value (env : Env) (lib : NetUrl) (c : Client)
    (bucketId filePath : String) (urlOptions : List UrlOptions) (res : Response)
    (hreq : env.NewRequest (c.DownloadFile env lib bucketId filePath urlOptions).request = none)
    (hdo : env.Do c.header (c.DownloadFile env lib bucketId filePath urlOptions).request
      = .ok res) :
    (c.DownloadFile env lib bucketId filePath urlOptions).value = res.Body
    ∧ (c.DownloadFile env lib bucketId filePath urlOptions).err = res.BodyErr := by
  have key : ∀ r : Request, env.NewRequest r = none → env.Do c.header r = .ok res →
      ∀ x : Call Bytes,
      x = (match env.NewRequest r with
        | some err => (⟨c.header, r, [], some err⟩ : Call Bytes)
        | none =>
          match env.Do c.header r with
          | .error err => ⟨c.header, r, [], some err⟩
          | .ok res =>
            match ReadAll res with
            | (body, err) => ⟨c.header, r, body, err⟩) →
      x.value = res.Body ∧ x.err = res.BodyErr := by
    intro r h1 h2 x hx
    subst hx
    rw [h1]
    simp only
    rw [h2]
    exact ⟨rfl, rfl⟩
  rw [DownloadFile_request] at hreq hdo
  exact key _ hreq hdo _ rfl

/-- C9: `GetPublicUrl` returns `buildUrlWithOption` of `baseUrl + "/render/image/public/" +
bucket + "/" + path` when the first options element has a transform and of `baseUrl +
"/object/public/" + bucket + "/" + path` otherwise; `DownloadFile` requests, with `GET`, the
same for `"/render/image/authenticated/"` and `"/object/"`, and when the request is built and
the session answers, it returns the bytes of the response body as they are. -/
theorem render_path_iff_transform (env : Env) (lib : NetUrl) (c : Client)
    (bucketId filePath : String) (urlOptions : List UrlOptions) (res : Response)
    (hreq : env.NewRequest (c.DownloadFile env lib bucketId filePath urlOptions).request = none)
    (hdo : env.Do c.header (c.DownloadFile env lib bucketId filePath urlOptions).request
      = .ok res) :
    (c.GetPublicUrl lib bucketId filePath urlOptions).SignedURL
        = buildUrlWithOption lib
            (c.baseUrl
              ++ (if transformSupplied urlOptions then "/render/image/public/"
                  else "/object/public/")
              ++ bucketId ++ "/" ++ filePath)
            (firstOptions urlOptions)
    ∧ (c.DownloadFile env lib bucketId filePath urlOptions).request
        = ⟨"GET",
            buildUrlWithOption lib
              (c.baseUrl
                ++ (if transformSupplied urlOptions then "/render/image/authenticated/"
                    else "/object/")
                ++ bucketId ++ "/" ++ filePath)
              (firstOptions urlOptions),
            Body.none⟩
    ∧ (c.DownloadFile env lib bucketId filePath urlOptions).value = res.Body := by
  refine ⟨?_, ?_, (DownloadFile_value env lib c bucketId filePath urlOptions res hreq hdo).1⟩
  · unfold Client.GetPublicUrl
    simp only
    cases urlOptions with
    | nil =>
      simp only [transformSupplied, Bool.false_eq_true, if_false]
      rw [append_literals c.baseUrl "/" "object" "/public/" "/object/public/" (by decide)]
    | cons o r =>
      cases h : o.Transform with
      | none =>
        simp only [transformSupplied, h, Option.isSome_none, Bool.false_eq_true, if_false,
          ne_eq, not_true_eq_false]
        rw [append_literals c.baseUrl "/" "object" "/public/" "/object/public/" (by decide)]
      | some t =>
        simp only [transformSupplied, h, Option.isSome_some, if_true, ne_eq, reduceCtorEq,
          not_false_eq_true]
        rw [append_literals c.baseUrl "/" "render/image" "/public/" "/render/image/public/"
          (by decide)]
  · rw [DownloadFile_request]
    simp only [MethodGet]
    cases urlOptions with
    | nil =>
      simp only [transformSupplied, Bool.false_eq_true, if_false]
      rw [append_literals c.baseUrl "/" "object" "/" "/object/" (by decide)]
    | cons o r =>
      cases h : o.Transform with
      | none =>
        simp only [transformSupplied, h, Option.isSome_none, Bool.false_eq_true, if_false,
          ne_eq, not_true_eq_false]
        rw [append_literals c.baseUrl "/" "object" "/" "/object/" (by decide)]
      | some t =>
        simp only [transformSupplied, h, Option.isSome_some, if_true, ne_eq, reduceCtorEq,
          not_false_eq_true]
        rw [append_literals c.baseUrl "/" "render/image/authenticated" "/"
          "/render/image/authenticated/" (by decide)]

/-- C9 at a request for `bucket/a.png` with a width transform. -/
theorem render_path_iff_transform_witness :
    (bareClient.GetPublicUrl plainUrl "bucket" "a.png"
        [{ Transform := some { Width := 20 } }]).SignedURL
      = "http://host/storage/v1/render/image/public/bucket/a.png?width=20"
    ∧ (bareClient.DownloadFile bytesEnv plainUrl "bucket" "a.png"
        [{ Transform := some { Width := 20 } }]).value = [7, 8, 9] := by
  have h := render_path_iff_transform bytesEnv plainUrl bareClient "bucket" "a.png"
    [{ Transform := some { Width := 20 } }] { Body := [7, 8, 9] } rfl rfl
  refine ⟨?_, h.2.2⟩
  rw [h.1]
  decide

/-! ### Escaping -/

theorem upperhex_ne_sep : ∀ n, n < 16 → upperhex n ≠ '&' ∧ upperhex n ≠ '=' := by decide

theorem pctByte_ne_sep (b : UInt8) (x : Char) (hx : x ∈ pctByte b) : x ≠ '&' ∧ x ≠ '=' := by
  have hb : b.toNat < 256 := b.val.isLt
  simp only [pctByte, List.mem_cons, List.mem_singleton, List.not_mem_nil, or_false] at hx
  rcases hx with rfl | rfl | rfl
  · decide
  · exact upperhex_ne_sep _ (by omega)
  · exact upperhex_ne_sep _ (by omega)

theorem escapeChar_ne_sep (c x : Char) (hx : x ∈ escapeChar c) : x ≠ '&' ∧ x ≠ '=' := by
  unfold escapeChar at hx
  split at hx
  · rename_i hu
    simp only [List.mem_singleton] at hx
    subst hx
    constructor
    · rintro rfl
      exact absurd hu (by decide)
    · rintro rfl
      exact absurd hu (by decide)
  · split at hx
    · simp only [List.mem_singleton] at hx
      subst hx
      decide
    · simp only [List.mem_flatMap] at hx
      obtain ⟨b, _, hb⟩ := hx
      exact pctByte_ne_sep b x hb

theorem QueryEscape_ne_sep (s : String) (x : Char) (hx : x ∈ (QueryEscape s).data) :
    x ≠ '&' ∧ x ≠ '=' := by
  simp only [QueryEscape, List.mem_flatMap] at hx
  obtain ⟨c, _, hc⟩ := hx
  exact escapeChar_ne_sep c x hc

theorem flatMap_escapeChar_unreserved (l : List Char) (h : ∀ c ∈ l, unreserved c = true) :
    l.flatMap escapeChar = l := by
  induction l with
  | nil => rfl
  | cons c t ih =>
    have hc := h c (by simp)
    have ht := ih (fun d hd => h d (List.mem_cons_of_mem _ hd))
    simp [List.flatMap_cons, escapeChar, hc, ht]

theorem QueryEscape_unreserved (s : String) (h : ∀ c ∈ s.data, unreserved c = true) :
    QueryEscape s = s := by
  simp [QueryEscape, flatMap_escapeChar_unreserved s.data h]

theorem digitChar_unreserved : ∀ m, m < 10 → unreserved (Nat.digitChar m) = true := by decide

theorem toDigitsCore_unreserved (fuel n : Nat) (ds : List Char)
    (h : ∀ c ∈ ds, unreserved c = true) :
    ∀ c ∈ Nat.toDigitsCore 10 fuel n ds, unreserved c = true := by
  induction fuel generalizing n ds with
  | zero => simpa [Nat.toDigitsCore] using h
  | succ f ih =>
    have hd : unreserved (Nat.digitChar (n % 10)) = true :=
      digitChar_unreserved _ (Nat.mod_lt _ (by decide))
    have hds : ∀ c ∈ Nat.digitChar (n % 10) :: ds, unreserved c = true := by
      intro c hc
      rcases List.mem_cons.1 hc with rfl | hc
      · exact hd
      · exact h c hc
    simp only [Nat.toDigitsCore]
    split
    · exact hds
    · exact ih _ _ hds

theorem QueryEscape_Itoa (i : Int) (hi : 0 < i) : QueryEscape (Itoa i) = Itoa i := by
  apply QueryEscape_unreserved
  have : ¬ i < 0 := by omega
  simp only [Itoa, this, if_false, Nat.repr, Nat.toDigits, List.asString]
  exact toDigitsCore_unreserved _ _ [] (by simp)

/-! ### Splitting an encoded query -/

theorem splitAmp_word (w : List Char) (hw : '&' ∉ w) : splitAmp w = [w] := by
  induction w with
  | nil => rfl
  | cons c t ih =>
    have hc : c ≠ '&' := fun h => hw (by simp [h])
    have ht := ih (fun h => hw (List.mem_cons_of_mem _ h))
    simp [splitAmp, hc, ht]

theorem splitAmp_word_amp (w rest : List Char) (hw : '&' ∉ w) :
    splitAmp (w ++ '&' :: rest) = w :: splitAmp rest := by
  induction w with
  | nil => simp [splitAmp]
  | cons c t ih =>
    have hc : c ≠ '&' := fun h => hw (by simp [h])
    have ht := ih (fun h => hw (List.mem_cons_of_mem _ h))
    simp [splitAmp, hc, ht]

theorem splitAmp_join (w : List Char) (ws : List (List Char)) (hw : '&' ∉ w)
    (hws : ∀ x ∈ ws, '&' ∉ x) :
    splitAmp (w ++ ws.flatMap fun x => '&' :: x) = w :: ws := by
  induction ws generalizing w with
  | nil => simpa using splitAmp_word w hw
  | cons x r ih =>
    have hx := hws x (by simp)
    have hr := ih x hx (fun y hy => hws y (List.mem_cons_of_mem _ hy))
    simp only [List.flatMap_cons, List.cons_append]
    rw [splitAmp_word_amp w _ hw, hr]

theorem cutEq_cut (k v : List Char) (hk : '=' ∉ k) : cutEq (k ++ '=' :: v) = (k, v) := by
  induction k with
  | nil => simp [cutEq]
  | cons c t ih =>
    have hc : c ≠ '=' := fun h => hk (by simp [h])
    have ht := ih (fun h => hk (List.mem_cons_of_mem _ h))
    simp [cutEq, hc, ht]

/-! ### `Values.Encode` -/

theorem component_no_amp (p : String × String) : '&' ∉ component p := by
  intro h
  simp only [component, List.mem_append, List.mem_cons] at h
  rcases h with h | h | h
  · exact (QueryEscape_ne_sep _ _ h).1 rfl
  · exact absurd h (by decide)
  · exact (QueryEscape_ne_sep _ _ h).1 rfl

theorem encodeStep_data (buf : String) (p : String × String) :
    (encodeStep buf p).data
      = if buf.data = [] then component p else buf.data ++ '&' :: component p := by
  unfold encodeStep component
  by_cases h : buf.data = []
  · have hl : ¬ buf.length > 0 := by simp [String.length, h]
    simp [hl, h]
  · have hl : buf.length > 0 := by
      simp only [String.length, gt_iff_lt, List.length_pos]
      exact h
    simp [hl, h]

theorem foldl_encodeStep_data (ps : List (String × String)) (buf : String)
    (hbuf : buf.data ≠ []) :
    (ps.foldl encodeStep buf).data
      = buf.data ++ (ps.map component).flatMap fun x => '&' :: x := by
  induction ps generalizing buf with
  | nil => simp
  | cons p r ih =>
    have hstep : (encodeStep buf p).data = buf.data ++ '&' :: component p := by
      rw [encodeStep_data, if_neg hbuf]
    have hne : (encodeStep buf p).data ≠ [] := by
      rw [hstep]; simp [hbuf]
    simp only [List.foldl_cons, List.map_cons, List.flatMap_cons]
    rw [ih _ hne, hstep]
    simp

theorem splitAmp_encode (p : String × String) (r : List (String × String)) :
    splitAmp ((p :: r).foldl encodeStep "").data = (p :: r).map component := by
  have hstep : (encodeStep "" p).data = component p := by
    rw [encodeStep_data]; simp
  have hne : (encodeStep "" p).data ≠ [] := by
    rw [hstep]; simp [component]
  simp only [List.foldl_cons, List.map_cons]
  rw [foldl_encodeStep_data r _ hne, hstep]
  exact splitAmp_join _ _ (component_no_amp p)
    (fun x hx => by
      obtain ⟨q, _, rfl⟩ := List.mem_map.1 hx
      exact component_no_amp q)

/-- The components of an encoded query are the escaped pairs, in the order written. -/
theorem queryPairs_foldl_encodeStep (ps : List (String × String)) :
    queryPairs (ps.foldl encodeStep "")
      = ps.map fun p => (QueryEscape p.1, QueryEscape p.2) := by
  cases ps with
  | nil => simp [queryPairs, splitAmp]
  | cons p r =>
    unfold queryPairs
    rw [splitAmp_encode]
    have hfilter : ((p :: r).map component).filter (fun w => decide (w ≠ []))
        = (p :: r).map component := by
      apply List.filter_eq_self.2
      intro w hw
      obtain ⟨q, _, rfl⟩ := List.mem_map.1 hw
      simp [component]
    rw [hfilter, List.map_map]
    apply List.map_congr_left
    intro q _
    have hk : '=' ∉ (QueryEscape q.1).data := fun h => (QueryEscape_ne_sep _ _ h).2 rfl
    simp [component, cutEq_cut _ _ hk]

theorem queryValues_Encode (v : Values) (key : String) :
    queryValues v.Encode key
      = ((v.sorted.filter fun p => QueryEscape p.1 = key).map fun p => QueryEscape p.2) := by
  unfold queryValues Values.Encode
  rw [queryPairs_foldl_encodeStep, List.filter_map, List.map_map]
  rfl

/-! ### Sorting keeps the values of each key -/

theorem filter_key_filter_key (v : Values) (k key : String) :
    ((v.filter fun p => p.1 = k).filter fun p => p.1 = key)
      = if k = key then v.filter fun p => p.1 = key else [] := by
  rw [List.filter_filter]
  split
  · rename_i h
    subst h
    simp
  · rename_i h
    apply List.filter_eq_nil_iff.2
    intro p _
    simp only [Bool.and_eq_true, decide_eq_true_eq, not_and]
    intro h1 h2
    exact h (h2.symm.trans h1)

theorem filter_key_flatMap (v : Values) (key : String) (L : List String) (hL : L.Nodup) :
    ((L.flatMap fun k => v.filter fun p => p.1 = k).filter fun p => p.1 = key)
      = if key ∈ L then v.filter fun p => p.1 = key else [] := by
  induction L with
  | nil => simp
  | cons k r ih =>
    have hr := ih (List.nodup_cons.1 hL).2
    have hk : k ∉ r := (List.nodup_cons.1 hL).1
    simp only [List.flatMap_cons, List.filter_append]
    rw [hr, filter_key_filter_key]
    by_cases h : k = key
    · subst h
      simp [hk]
    · have h' : ¬ key = k := fun e => h e.symm
      simp [h, h']

/-- Sorting the keys does not change the values a key has, nor their order. -/
theorem filter_key_sorted (v : Values) (key : String) :
    (v.sorted.filter fun p => p.1 = key) = v.filter fun p => p.1 = key := by
  unfold Values.sorted
  have hperm := List.perm_insertionSort (fun a b : String => stringLE a b = true) v.keys
  have hnodup : (List.insertionSort (fun a b : String => stringLE a b = true) v.keys).Nodup :=
    hperm.nodup_iff.2 (List.nodup_dedup _)
  rw [filter_key_flatMap v key _ hnodup]
  split
  · rfl
  · rename_i h
    symm
    apply List.filter_eq_nil_iff.2
    intro p hp hpk
    apply h
    rw [hperm.mem_iff]
    simp only [Values.keys, List.mem_dedup, List.mem_map]
    exact ⟨p, hp, by simpa using hpk⟩

theorem mem_sorted (v : Values) (p : String × String) (hp : p ∈ v.sorted) : p ∈ v := by
  simp only [Values.sorted, List.mem_flatMap, List.mem_filter] at hp
  obtain ⟨_, _, h, _⟩ := hp
  exact h

/-- The values an encoded query carries for a key, when escaping leaves every key of the map
as it is: the escaped values of that key, in the order they were added. -/
theorem queryValues_Encode_of_plain_keys (v : Values) (key : String)
    (hkeys : ∀ p ∈ v, QueryEscape p.1 = p.1) :
    queryValues v.Encode key
      = ((v.filter fun p => p.1 = key).map fun p => QueryEscape p.2) := by
  rw [queryValues_Encode, ← filter_key_sorted]
  congr 1
  apply List.filter_congr
  intro p hp
  rw [hkeys p (mem_sorted v p hp)]

theorem Encode_nil : Values.Encode [] = "" := by decide

/-! ### The URL builder -/

theorem acceptedResize_ne_empty (r : String) (h : acceptedResize r = true) : r ≠ "" := by
  simp only [acceptedResize, decide_eq_true_eq] at h
  rcases h with rfl | rfl | rfl <;> decide

theorem buildUrlWithOption_eq (lib : NetUrl) (urlStr : String) (o : UrlOptions) (u : URL)
    (hparse : lib.Parse urlStr = some u) :
    buildUrlWithOption lib urlStr o
      = URL.String { u with RawQuery := (lib.Query u ++ optionPairs o).Encode } := by
  unfold buildUrlWithOption
  rw [hparse]
  simp only
  congr 2
  obtain ⟨tr, dl⟩ := o
  have hdl : (if dl = true then [("download", FormatBool dl)] else ([] : Values))
      = if dl = true then [("download", "true")] else [] := by
    cases dl <;> simp [FormatBool]
  cases tr with
  | none =>
    cases dl <;> simp [optionPairs, Values.Add, FormatBool]
  | some t =>
    have hres : (t.Resize ≠ "" ∧ (t.Resize = "conver" ∨ t.Resize = "contain" ∨ t.Resize = "fill"))
        ↔ acceptedResize t.Resize = true := by
      constructor
      · intro h
        simpa [acceptedResize] using h.2
      · intro h
        exact ⟨acceptedResize_ne_empty _ h, by simpa [acceptedResize] using h⟩
    simp only [optionPairs, Values.Add, hres]
    cases dl <;> by_cases h1 : t.Height > 0 <;> by_cases h2 : t.Width > 0 <;>
      by_cases h3 : t.Format = "" <;> by_cases h4 : t.Quality > 0 <;>
      by_cases h5 : acceptedResize t.Resize = true <;>
      simp [h1, h2, h3, h4, h5, FormatBool]

theorem optionPairs_plain_keys (o : UrlOptions) :
    ∀ p ∈ optionPairs o, QueryEscape p.1 = p.1 := by
  have hk : ∀ p ∈ optionPairs o,
      p.1 ∈ ["height", "width", "format", "quality", "resize", "download"] := by
    intro p hp
    obtain ⟨tr, dl⟩ := o
    cases tr with
    | none =>
      simp only [optionPairs, List.nil_append] at hp
      split at hp <;> simp_all
    | some t =>
      simp only [optionPairs, List.mem_append] at hp
      rcases hp with ((((hp | hp) | hp) | hp) | hp) | hp <;> split at hp <;> simp_all
  intro p hp
  have := hk p hp
  simp only [List.mem_cons, List.mem_singleton, List.not_mem_nil, or_false] at this
  rcases this with h | h | h | h | h | h <;> rw [h] <;> decide

theorem queryValues_optionPairs (o : UrlOptions) (key : String) :
    queryValues (optionPairs o).Encode key
      = (((optionPairs o).filter fun p => p.1 = key).map fun p => QueryEscape p.2) :=
  queryValues_Encode_of_plain_keys _ _ (optionPairs_plain_keys o)

theorem QueryEscape_true : QueryEscape "true" = "true" := by decide

theorem QueryEscape_acceptedResize (r : String) (h : acceptedResize r = true) :
    QueryEscape r = r := by
  simp only [acceptedResize, decide_eq_true_eq] at h
  rcases h with rfl | rfl | rfl <;> decide

theorem queryValues_height (o : UrlOptions) :
    queryValues (optionPairs o).Encode "height"
      = (match o.Transform with
          | some t => if t.Height > 0 then [Itoa t.Height] else []
          | none => []) := by
  rw [queryValues_optionPairs]
  obtain ⟨tr, dl⟩ := o
  cases tr with
  | none => cases dl <;> simp [optionPairs]
  | some t =>
    cases dl <;> by_cases h1 : t.Height > 0 <;> by_cases h2 : t.Width > 0 <;>
      by_cases h3 : t.Format = "" <;> by_cases h4 : t.Quality > 0 <;>
      by_cases h5 : acceptedResize t.Resize = true <;>
      simp [optionPairs, h1, h2, h3, h4, h5, QueryEscape_Itoa]

theorem queryValues_width (o : UrlOptions) :
    queryValues (optionPairs o).Encode "width"
      = (match o.Transform with
          | some t => if t.Width > 0 then [Itoa t.Width] else []
          | none => []) := by
  rw [queryValues_optionPairs]
  obtain ⟨tr, dl⟩ := o
  cases tr with
  | none => cases dl <;> simp [optionPairs]
  | some t =>
    cases dl <;> by_cases h1 : t.Height > 0 <;> by_cases h2 : t.Width > 0 <;>
      by_cases h3 : t.Format = "" <;> by_cases h4 : t.Quality > 0 <;>
      by_cases h5 : acceptedResize t.Resize = true <;>
      simp [optionPairs, h1, h2, h3, h4, h5, QueryEscape_Itoa]

theorem queryValues_quality (o : UrlOptions) :
    queryValues (optionPairs o).Encode "quality"
      = (match o.Transform with
          | some t => if t.Quality > 0 then [Itoa t.Quality] else []
          | none => []) := by
  rw [queryValues_optionPairs]
  obtain ⟨tr, dl⟩ := o
  cases tr with
  | none => cases dl <;> simp [optionPairs]
  | some t =>
    cases dl <;> by_cases h1 : t.Height > 0 <;> by_cases h2 : t.Width > 0 <;>
      by_cases h3 : t.Format = "" <;> by_cases h4 : t.Quality > 0 <;>
      by_cases h5 : acceptedResize t.Resize = true <;>
      simp [optionPairs, h1, h2, h3, h4, h5, QueryEscape_Itoa]

theorem queryValues_format (o : UrlOptions) :
    queryValues (optionPairs o).Encode "format"
      = (match o.Transform with
          | some t => if t.Format ≠ "" then [QueryEscape t.Format] else []
          | none => []) := by
  rw [queryValues_optionPairs]
  obtain ⟨tr, dl⟩ := o
  cases tr with
  | none => cases dl <;> simp [optionPairs]
  | some t =>
    cases dl <;> by_cases h1 : t.Height > 0 <;> by_cases h2 : t.Width > 0 <;>
      by_cases h3 : t.Format = "" <;> by_cases h4 : t.Quality > 0 <;>
      by_cases h5 : acceptedResize t.Resize = true <;>
      simp [optionPairs, h1, h2, h3, h4, h5]

theorem queryValues_resize (o : UrlOptions) :
    queryValues (optionPairs o).Encode "resize"
      = (match o.Transform with
          | some t => if acceptedResize t.Resize then [t.Resize] else []
          | none => []) := by
  rw [queryValues_optionPairs]
  obtain ⟨tr, dl⟩ := o
  cases tr with
  | none => cases dl <;> simp [optionPairs]
  | some t =>
    cases dl <;> by_cases h1 : t.Height > 0 <;> by_cases h2 : t.Width > 0 <;>
      by_cases h3 : t.Format = "" <;> by_cases h4 : t.Quality > 0 <;>
      by_cases h5 : acceptedResize t.Resize = true <;>
      simp [optionPairs, h1, h2, h3, h4, h5, QueryEscape_acceptedResize]

theorem queryValues_download (o : UrlOptions) :
    queryValues (optionPairs o).Encode "download"
      = (if o.Download then ["true"] else []) := by
  rw [queryValues_optionPairs]
  obtain ⟨tr, dl⟩ := o
  cases tr with
  | none => cases dl <;> simp [optionPairs, QueryEscape_true]
  | some t =>
    cases dl <;> by_cases h1 : t.Height > 0 <;> by_cases h2 : t.Width > 0 <;>
      by_cases h3 : t.Format = "" <;> by_cases h4 : t.Quality > 0 <;>
      by_cases h5 : acceptedResize t.Resize = true <;>
      simp [optionPairs, h1, h2, h3, h4, h5, QueryEscape_true]

theorem optionPairs_unset (o : UrlOptions) (hd : o.Download = false)
    (ht : ∀ t, o.Transform = some t →
      t.Height ≤ 0 ∧ t.Width ≤ 0 ∧ t.Format = "" ∧ t.Quality ≤ 0 ∧ t.Resize = "") :
    optionPairs o = [] := by
  obtain ⟨tr, dl⟩ := o
  simp only at hd
  subst hd
  cases tr with
  | none => simp [optionPairs]
  | some t =>
    obtain ⟨h1, h2, h3, h4, h5⟩ := ht t rfl
    have h1' : ¬ t.Height > 0 := by omega
    have h2' : ¬ t.Width > 0 := by omega
    have h4' : ¬ t.Quality > 0 := by omega
    have h5' : acceptedResize t.Resize = false := by rw [h5]; decide
    simp [optionPairs, h1', h2', h3, h4', h5']

theorem buildUrlWithOption_plain (lib : NetUrl) (urlStr : String) (o : UrlOptions) (u : URL)
    (hparse : lib.Parse urlStr = some u) (hraw : u.RawQuery = "")
    (hempty : lib.ParseQuery "" = []) :
    buildUrlWithOption lib urlStr o
      = URL.String { u with RawQuery := (optionPairs o).Encode } := by
  rw [buildUrlWithOption_eq lib urlStr o u hparse]
  simp [NetUrl.Query, hraw, hempty]

/-! ### Reading the query back -/

theorem upperhex_hex : ∀ n, n < 16 → ishex (upperhex n) = true ∧ unhex (upperhex n) = n := by
  decide

theorem ofNat_toNat_byte (b : UInt8) : UInt8.ofNat b.toNat = b := by
  apply UInt8.eq_of_toBitVec_eq
  apply BitVec.eq_of_toNat_eq
  have hb : b.toNat < UInt8.size := b.val.isLt
  exact UInt8.toNat_ofNat_of_lt hb

theorem unescapeChars_plus (rest : List Char) :
    unescapeChars ('+' :: rest) = (unescapeChars rest).map fun t => 32 :: t := by
  rcases rest with _ | ⟨a, _ | ⟨b, r⟩⟩ <;> simp [unescapeChars]

theorem unescapeChars_plain (c : Char) (rest : List Char) (h1 : c ≠ '%') (h2 : c ≠ '+') :
    unescapeChars (c :: rest)
      = (unescapeChars rest).map fun t => String.utf8EncodeChar c ++ t := by
  rcases rest with _ | ⟨a, _ | ⟨b, r⟩⟩ <;> simp [unescapeChars, h1, h2]

theorem unescapeChars_pct (a b : Char) (rest : List Char) (ha : ishex a = true)
    (hb : ishex b = true) :
    unescapeChars ('%' :: a :: b :: rest)
      = (unescapeChars rest).map fun t => UInt8.ofNat (unhex a * 16 + unhex b) :: t := by
  rw [unescapeChars]
  simp [ha, hb]

theorem unescapeChars_pctByte (b : UInt8) (rest : List Char) :
    unescapeChars (pctByte b ++ rest) = (unescapeChars rest).map fun t => b :: t := by
  have hb : b.toNat < 256 := b.val.isLt
  have h1 := upperhex_hex (b.toNat / 16) (by omega)
  have h2 := upperhex_hex (b.toNat % 16) (by omega)
  have hval : UInt8.ofNat (b.toNat / 16 * 16 + b.toNat % 16) = b := by
    rw [Nat.div_add_mod']
    exact ofNat_toNat_byte b
  show unescapeChars ('%' :: upperhex (b.toNat / 16) :: upperhex (b.toNat % 16) :: rest) = _
  rw [unescapeChars_pct _ _ _ h1.1 h2.1, h1.2, h2.2, hval]

theorem unescapeChars_pctBytes (bs : Bytes) (rest : List Char) :
    unescapeChars (bs.flatMap pctByte ++ rest) = (unescapeChars rest).map fun t => bs ++ t := by
  induction bs with
  | nil => simp
  | cons b r ih =>
    simp only [List.flatMap_cons, List.append_assoc]
    rw [unescapeChars_pctByte, ih]
    cases unescapeChars rest <;> simp

theorem unescapeChars_escapeChar (c : Char) (rest : List Char) :
    unescapeChars (escapeChar c ++ rest)
      = (unescapeChars rest).map fun t => String.utf8EncodeChar c ++ t := by
  unfold escapeChar
  split
  · rename_i hu
    have h1 : c ≠ '%' := by
      rintro rfl
      exact absurd hu (by decide)
    have h2 : c ≠ '+' := by
      rintro rfl
      exact absurd hu (by decide)
    exact unescapeChars_plain c rest h1 h2
  · split
    · rename_i hs
      subst hs
      have h : String.utf8EncodeChar (Char.ofNat 32) = [32] := by decide
      rw [h]
      exact unescapeChars_plus rest
    · exact unescapeChars_pctBytes _ _

/-- Unescaping an escaped text gives back the bytes of the text. -/
theorem QueryUnescape_QueryEscape (s : String) : QueryUnescape (QueryEscape s) = some (utf8 s) := by
  have h : ∀ l : List Char,
      unescapeChars (l.flatMap escapeChar) = some (l.flatMap String.utf8EncodeChar) := by
    intro l
    induction l with
    | nil => rfl
    | cons c r ih =>
      rw [List.flatMap_cons, unescapeChars_escapeChar, ih]
      simp
  exact h s.data

theorem upperhex_ne_semicolon : ∀ n, n < 16 → upperhex n ≠ ';' := by decide

theorem escapeChar_ne_semicolon (c : Char) : ';' ∉ escapeChar c := by
  intro hx
  unfold escapeChar at hx
  split at hx
  · rename_i hu
    simp only [List.mem_singleton] at hx
    subst hx
    exact absurd hu (by decide)
  · split at hx
    · simp only [List.mem_singleton] at hx
      exact absurd hx (by decide)
    · simp only [List.mem_flatMap] at hx
      obtain ⟨b, _, hb⟩ := hx
      have hlt : b.toNat < 256 := b.val.isLt
      simp only [pctByte, List.mem_cons, List.mem_singleton, List.not_mem_nil, or_false] at hb
      rcases hb with h | h | h
      · exact absurd h (by decide)
      · exact upperhex_ne_semicolon _ (by omega) h.symm
      · exact upperhex_ne_semicolon _ (by omega) h.symm

theorem QueryEscape_ne_semicolon (s : String) : ';' ∉ (QueryEscape s).data := by
  intro hx
  simp only [QueryEscape, List.mem_flatMap] at hx
  obtain ⟨c, _, hc⟩ := hx
  exact escapeChar_ne_semicolon c hc

/-- Parsing an encoded query gives back the bytes of every pair, in the order written. -/
theorem ParseQueryBytes_Encode (v : Values) :
    ParseQueryBytes v.Encode = v.sorted.map fun p => (utf8 p.1, utf8 p.2) := by
  unfold ParseQueryBytes Values.Encode
  rw [queryPairs_foldl_encodeStep, List.filterMap_map]
  rw [← List.filterMap_eq_map]
  apply List.filterMap_congr
  intro p _
  simp [QueryEscape_ne_semicolon, QueryUnescape_QueryEscape]

theorem utf8_optionKeys :
    ∀ k ∈ optionKeys, ∀ key ∈ optionKeys, utf8 k = utf8 key → k = key := by
  decide

theorem optionPairs_keys (o : UrlOptions) : ∀ p ∈ optionPairs o, p.1 ∈ optionKeys := by
  intro p hp
  obtain ⟨tr, dl⟩ := o
  cases tr with
  | none =>
    simp only [optionPairs, List.nil_append] at hp
    split at hp <;> simp_all [optionKeys]
  | some t =>
    simp only [optionPairs, List.mem_append] at hp
    rcases hp with ((((hp | hp) | hp) | hp) | hp) | hp <;> split at hp <;>
      simp_all [optionKeys]

/-- The values read back under one of the option keys from the query built for the options:
the bytes of the values added under that key. -/
theorem parsedValues_optionPairs (o : UrlOptions) (key : String) (hkey : key ∈ optionKeys) :
    parsedValues (optionPairs o).Encode key
      = (((optionPairs o).filter fun p => p.1 = key).map fun p => utf8 p.2) := by
  unfold parsedValues
  rw [ParseQueryBytes_Encode, List.filter_map, List.map_map, ← filter_key_sorted]
  congr 1
  apply List.filter_congr
  intro p hp
  have hk := optionPairs_keys o p (mem_sorted _ p hp)
  simp only [Function.comp, decide_eq_decide]
  constructor
  · exact utf8_optionKeys p.1 hk key hkey
  · intro h; rw [h]

theorem parsedValues_height (o : UrlOptions) :
    parsedValues (optionPairs o).Encode "height"
      = (match o.Transform with
          | some t => if t.Height > 0 then [utf8 (Itoa t.Height)] else []
          | none => []) := by
  rw [parsedValues_optionPairs o "height" (by decide)]
  obtain ⟨tr, dl⟩ := o
  cases tr with
  | none => cases dl <;> simp [optionPairs]
  | some t =>
    cases dl <;> by_cases h1 : t.Height > 0 <;> by_cases h2 : t.Width > 0 <;>
      by_cases h3 : t.Format = "" <;> by_cases h4 : t.Quality > 0 <;>
      by_cases h5 : acceptedResize t.Resize = true <;>
      simp [optionPairs, h1, h2, h3, h4, h5]

theorem parsedValues_width (o : UrlOptions) :
    parsedValues (optionPairs o).Encode "width"
      = (match o.Transform with
          | some t => if t.Width > 0 then [utf8 (Itoa t.Width)] else []
          | none => []) := by
  rw [parsedValues_optionPairs o "width" (by decide)]
  obtain ⟨tr, dl⟩ := o
  cases tr with
  | none => cases dl <;> simp [optionPairs]
  | some t =>
    cases dl <;> by_cases h1 : t.Height > 0 <;> by_cases h2 : t.Width > 0 <;>
      by_cases h3 : t.Format = "" <;> by_cases h4 : t.Quality > 0 <;>
      by_cases h5 : acceptedResize t.Resize = true <;>
      simp [optionPairs, h1, h2, h3, h4, h5]

theorem parsedValues_quality (o : UrlOptions) :
    parsedValues (optionPairs o).Encode "quality"
      = (match o.Transform with
          | some t => if t.Quality > 0 then [utf8 (Itoa t.Quality)] else []
          | none => []) := by
  rw [parsedValues_optionPairs o "quality" (by decide)]
  obtain ⟨tr, dl⟩ := o
  cases tr with
  | none => cases dl <;> simp [optionPairs]
  | some t =>
    cases dl <;> by_cases h1 : t.Height > 0 <;> by_cases h2 : t.Width > 0 <;>
      by_cases h3 : t.Format = "" <;> by_cases h4 : t.Quality > 0 <;>
      by_cases h5 : acceptedResize t.Resize = true <;>
      simp [optionPairs, h1, h2, h3, h4, h5]

theorem parsedValues_format (o : UrlOptions) :
    parsedValues (optionPairs o).Encode "format"
      = (match o.Transform with
          | some t => if t.Format ≠ "" then [utf8 t.Format] else []
          | none => []) := by
  rw [parsedValues_optionPairs o "format" (by decide)]
  obtain ⟨tr, dl⟩ := o
  cases tr with
  | none => cases dl <;> simp [optionPairs]
  | some t =>
    cases dl <;> by_cases h1 : t.Height > 0 <;> by_cases h2 : t.Width > 0 <;>
      by_cases h3 : t.Format = "" <;> by_cases h4 : t.Quality > 0 <;>
      by_cases h5 : acceptedResize t.Resize = true <;>
      simp [optionPairs, h1, h2, h3, h4, h5]

theorem parsedValues_download (o : UrlOptions) :
    parsedValues (optionPairs o).Encode "download"
      = (if o.Download = true then [utf8 "true"] else []) := by
  rw [parsedValues_optionPairs o "download" (by decide)]
  obtain ⟨tr, dl⟩ := o
  cases tr with
  | none => cases dl <;> simp [optionPairs]
  | some t =>
    cases dl <;> by_cases h1 : t.Height > 0 <;> by_cases h2 : t.Width > 0 <;>
      by_cases h3 : t.Format = "" <;> by_cases h4 : t.Quality > 0 <;>
      by_cases h5 : acceptedResize t.Resize = true <;>
      simp [optionPairs, h1, h2, h3, h4, h5]

/-! ### The query parameters -/

/-- C4: for a base URL that parses and has no query of its own, the result of
`buildUrlWithOption` is the head of the URL, then `?` and a query `q` when `q` is non-empty (or
the base URL ended in a bare `?`), then the fragment. In `q`, `height` (`width`, `quality`)
occurs exactly when a transform is given with that field > 0, once, written as the decimal
text of the field; `format` occurs exactly when a transform is given with a non-empty `Format`,
once, written query-escaped; `download` occurs exactly when `Download` is true, written
`true`, and never `false`. Read back as `url.ParseQuery` reads a query, the value under each of
these keys is exactly the decimal text, exactly `Format`, exactly `true`. When no field is set
`q` is empty and the result is the base URL as parsed. -/
theorem buildUrlWithOption_query_parameters (lib : NetUrl) (urlStr : String) (o : UrlOptions)
    (u : URL) (hparse : lib.Parse urlStr = some u) (hraw : u.RawQuery = "")
    (hempty : lib.ParseQuery "" = []) :
    ∃ q : String,
      buildUrlWithOption lib urlStr o
        = u.Head ++ (if u.ForceQuery = true ∨ q ≠ "" then "?" ++ q else "")
            ++ (if u.Fragment ≠ "" then "#" ++ u.Fragment else "")
      ∧ queryValues q "height" = (match o.Transform with
          | some t => if t.Height > 0 then [Itoa t.Height] else []
          | none => [])
      ∧ queryValues q "width" = (match o.Transform with
          | some t => if t.Width > 0 then [Itoa t.Width] else []
          | none => [])
      ∧ queryValues q "quality" = (match o.Transform with
          | some t => if t.Quality > 0 then [Itoa t.Quality] else []
          | none => [])
      ∧ queryValues q "format" = (match o.Transform with
          | some t => if t.Format ≠ "" then [QueryEscape t.Format] else []
          | none => [])
      ∧ queryValues q "download" = (if o.Download = true then ["true"] else [])
      ∧ "false" ∉ queryValues q "download"
      ∧ parsedValues q "height" = (match o.Transform with
          | some t => if t.Height > 0 then [utf8 (Itoa t.Height)] else []
          | none => [])
      ∧ parsedValues q "width" = (match o.Transform with
          | some t => if t.Width > 0 then [utf8 (Itoa t.Width)] else []
          | none => [])
      ∧ parsedValues q "quality" = (match o.Transform with
          | some t => if t.Quality > 0 then [utf8 (Itoa t.Quality)] else []
          | none => [])
      ∧ parsedValues q "format" = (match o.Transform with
          | some t => if t.Format ≠ "" then [utf8 t.Format] else []
          | none => [])
      ∧ parsedValues q "download" = (if o.Download = true then [utf8 "true"] else [])
      ∧ utf8 "false" ∉ parsedValues q "download"
      ∧ ((o.Download = false ∧ ∀ t, o.Transform = some t →
            t.Height ≤ 0 ∧ t.Width ≤ 0 ∧ t.Format = "" ∧ t.Quality ≤ 0 ∧ t.Resize = "") →
          q = "" ∧ buildUrlWithOption lib urlStr o = URL.String u) := by
  have hres := buildUrlWithOption_plain lib urlStr o u hparse hraw hempty
  refine ⟨(optionPairs o).Encode, ?_, queryValues_height o, queryValues_width o,
    queryValues_quality o, queryValues_format o, queryValues_download o, ?_,
    parsedValues_height o, parsedValues_width o, parsedValues_quality o,
    parsedValues_format o, parsedValues_download o, ?_, ?_⟩
  · rw [hres]
    simp [URL.String]
  · rw [queryValues_download]
    split <;> simp
  · rw [parsedValues_download]
    split
    · simp only [List.mem_singleton]
      decide
    · simp
  · rintro ⟨hd, ht⟩
    have hq : (optionPairs o).Encode = "" := by
      rw [optionPairs_unset o hd ht, Encode_nil]
    refine ⟨hq, ?_⟩
    rw [hres, hq, ← hraw]

/-- C4 at `http://host/a.png` with height 5, format `image/webp` and download set: the
format is written `image%2Fwebp` and reads back as `image/webp`. -/
theorem buildUrlWithOption_query_parameters_witness :
    ∃ q : String,
      buildUrlWithOption plainUrl "http://host/a.png"
          { Transform := some { Height := 5, Format := "image/webp" }, Download := true }
        = "http://host/a.png" ++ ("?" ++ q)
      ∧ queryValues q "height" = ["5"]
      ∧ queryValues q "width" = []
      ∧ queryValues q "format" = ["image%2Fwebp"]
      ∧ parsedValues q "format" = [utf8 "image/webp"]
      ∧ queryValues q "download" = ["true"] := by
  obtain ⟨q, h, hh, hw, _, hf, hd, _, _, _, _, hpf, _, _, _⟩ :=
    buildUrlWithOption_query_parameters plainUrl "http://host/a.png"
      { Transform := some { Height := 5, Format := "image/webp" }, Download := true }
      ⟨"http://host/a.png", false, "", ""⟩ (by decide) rfl rfl
  have hq : q ≠ "" := by
    intro h0
    rw [h0] at hh
    exact absurd hh (by decide)
  refine ⟨q, ?_, ?_, ?_, ?_, ?_, ?_⟩
  · rw [h]; simp [hq]
  · rw [hh]; decide
  · rw [hw]; decide
  · rw [hf]; decide
  · rw [hpf]; decide
  · rw [hd]; decide

/-- C5: for a base URL that parses and has no query of its own, `buildUrlWithOption` returns
a URL (the call does not fail) whose query has a `resize` key exactly when a transform is given
whose `Resize` is `"conver"`, `"contain"` or `"fill"`, with that value; for any other value
the query has no `resize` key. -/
theorem buildUrlWithOption_resize (lib : NetUrl) (urlStr : String) (o : UrlOptions)
    (u : URL) (hparse : lib.Parse urlStr = some u) (hraw : u.RawQuery = "")
    (hforce : u.ForceQuery = false) (hempty : lib.ParseQuery "" = []) :
    ∃ q : String,
      buildUrlWithOption lib urlStr o
        = u.Head ++ (if q ≠ "" then "?" ++ q else "")
            ++ (if u.Fragment ≠ "" then "#" ++ u.Fragment else "")
      ∧ queryValues q "resize" = (match o.Transform with
          | some t =>
            if t.Resize = "conver" ∨ t.Resize = "contain" ∨ t.Resize = "fill" then [t.Resize]
            else []
          | none => []) := by
  refine ⟨(optionPairs o).Encode, ?_, ?_⟩
  · rw [buildUrlWithOption_plain lib urlStr o u hparse hraw hempty]
    simp [URL.String, hforce]
  · rw [queryValues_resize]
    cases o.Transform with
    | none => rfl
    | some t => simp [acceptedResize]

/-- C5 at `http://host/a.png` with the resize mode `cover`: no `resize` key. -/
theorem buildUrlWithOption_resize_witness :
    ∃ q : String,
      buildUrlWithOption plainUrl "http://host/a.png" { Transform := some { Resize := "cover" } }
        = "http://host/a.png" ++ (if q ≠ "" then "?" ++ q else "")
      ∧ queryValues q "resize" = [] := by
  obtain ⟨q, h, hr⟩ :=
    buildUrlWithOption_resize plainUrl "http://host/a.png"
      { Transform := some { Resize := "cover" } }
      ⟨"http://host/a.png", false, "", ""⟩ (by decide) rfl rfl rfl
  refine ⟨q, ?_, ?_⟩
  · rw [h]; simp
  · rw [hr]; decide

end StorageGo
